import Mathlib

/-
Verification development for the C# language adapter
(src/crates/languages/src/csharp.rs).

The development shallowly embeds the two cores of the adapter:
the toolchain binary acquisition pipeline (fetch_latest_server_version,
fetch_server_binary, find_binary_in_dir) and the build-metadata
extraction routine (parse_msbuild_property_output), and proves the
listed properties about the embedded definitions.

Modelling conventions:
- Rust strings are Lean String values; all character-level work is done
  on the underlying List Char.
- Rust char::is_whitespace is modelled by its ASCII fragment
  (space, tab, newline, carriage return, vertical tab, form feed);
  the inputs of interest are ASCII.
- Rust str::to_lowercase is modelled by the ASCII lowering Char.toLower.
- serde_json parsing is modelled by an executable recursive-descent
  JSON reader over List Char.  Model restrictions: numbers are limited
  to integers (no fraction or exponent) and the string escape \u is not
  decoded; the simple escapes are decoded exactly as serde does.
- Filesystem and process effects of the acquisition pipeline are made
  explicit: every external outcome (metadata read, liveness check,
  file-existence probe, download, extracted tree) is a field of an
  environment record, and the pipeline returns its result together with
  the final container-directory state and the ordered list of effects
  it performed.
-/

/-! ## Character and string utilities (List Char based) -/

/-- JSON insignificant whitespace, exactly as in the JSON grammar used by
serde_json: space, tab, line feed, carriage return. -/
def isJsonWs (c : Char) : Bool :=
  [' ', '\t', '\n', '\r'].contains c

/-- ASCII fragment of Rust char::is_whitespace (used by str::trim and
str::split_whitespace). -/
def isRustWs (c : Char) : Bool :=
  [' ', '\t', '\n', '\r', '\x0b', '\x0c'].contains c

/-- ASCII lowering of a character list; models str::to_lowercase on the
ASCII inputs of interest. -/
def lowerList (cs : List Char) : List Char :=
  cs.map Char.toLower

/-- Rust str::contains for a string pattern: the pattern occurs as a
contiguous sublist (the empty pattern always occurs). -/
def isInfixList (pat : List Char) : List Char → Bool
  | [] => pat.isEmpty
  | c :: t => pat.isPrefixOf (c :: t) || isInfixList pat t

/-- Rust str::trim on a character list. -/
def trimList (cs : List Char) : List Char :=
  ((cs.dropWhile isRustWs).reverse.dropWhile isRustWs).reverse

/-- Rust str::split_once for a single-character pattern: split at the first
occurrence of sep, returning the parts before and after it. -/
def splitOnceChar (sep : Char) : List Char → Option (List Char × List Char)
  | [] => none
  | c :: cs =>
    if c == sep then some ([], cs)
    else (splitOnceChar sep cs).map (fun p => (c :: p.1, p.2))

/-- Accumulator worker for splitWsList. -/
def splitWsAux : List Char → List Char → List (List Char)
  | [], acc => if acc.isEmpty then [] else [acc.reverse]
  | c :: cs, acc =>
    if isRustWs c then
      if acc.isEmpty then splitWsAux cs [] else acc.reverse :: splitWsAux cs []
    else splitWsAux cs (c :: acc)

/-- Rust str::split_whitespace: maximal runs of non-whitespace characters. -/
def splitWsList (cs : List Char) : List (List Char) :=
  splitWsAux cs []

/-- Split a character list at every newline; n newlines give n+1 pieces. -/
def splitNl : List Char → List (List Char)
  | [] => [[]]
  | c :: cs =>
    if c == '\n' then [] :: splitNl cs
    else
      match splitNl cs with
      | l :: ls => (c :: l) :: ls
      | [] => [[c]]

/-- Strip one trailing carriage return, as Rust str::lines does per line. -/
def stripCr (l : List Char) : List Char :=
  if l.getLast? = some '\r' then l.dropLast else l

/-- Rust str::lines: split on newline treated as a terminator (a trailing
empty piece is dropped, the empty string has no lines), stripping one
trailing carriage return from each line. -/
def rustLines (cs : List Char) : List (List Char) :=
  let parts := splitNl cs
  let parts := if parts.getLast? = some [] then parts.dropLast else parts
  parts.map stripCr

/-! ## JSON value model and reader (serde_json) -/

/-- JSON values as built by serde_json, with numbers restricted to
integers (the adapter never meets fractional values). -/
inductive Json where
  | null
  | bool (b : Bool)
  | num (n : Int)
  | str (s : String)
  | arr (xs : List Json)
  | obj (fields : List (String × Json))

/-- Last-wins association lookup: serde_json object maps keep the value of
the last occurrence of a duplicated key. -/
def lookupLast (fs : List (String × Json)) (k : String) : Option Json :=
  match fs with
  | [] => none
  | (k2, v) :: rest =>
    match lookupLast rest k with
    | some v2 => some v2
    | none => if k2 == k then some v else none

/-- serde_json Value::get for object values (None on any other shape). -/
def Json.get : Json → String → Option Json
  | Json.obj fs, k => lookupLast fs k
  | _, _ => none

/-- Decode one simple JSON string escape character.  The \u escape is not
decoded (model restriction). -/
def escChar : Char → Option Char
  | '"' => some '"'
  | '\\' => some '\\'
  | '/' => some '/'
  | 'b' => some (Char.ofNat 8)
  | 'f' => some (Char.ofNat 12)
  | 'n' => some '\n'
  | 'r' => some '\r'
  | 't' => some '\t'
  | _ => none

/-- Read the body of a JSON string after the opening quote; returns the
decoded characters and the remainder after the closing quote.  Raw
control characters are rejected, as serde does. -/
def parseStringChars : List Char → Option (List Char × List Char)
  | [] => none
  | '"' :: rest => some ([], rest)
  | '\\' :: e :: rest =>
    match escChar e with
    | some c => (parseStringChars rest).map (fun p => (c :: p.1, p.2))
    | none => none
  | c :: rest =>
    if c.toNat < 32 then none
    else (parseStringChars rest).map (fun p => (c :: p.1, p.2))

/-- Accumulate decimal digits. -/
def digitsVal : List Char → Nat → Nat × List Char
  | [], acc => (acc, [])
  | c :: cs, acc =>
    if c.isDigit then digitsVal cs (10 * acc + (c.toNat - 48))
    else (acc, c :: cs)

/-- Read an unsigned JSON integer (leading zeros rejected); fails if a
fraction or exponent follows (model restriction to integers). -/
def parseNumMag (cs : List Char) : Option (Nat × List Char) :=
  match cs with
  | [] => none
  | c :: rest =>
    if c == '0' then
      match rest with
      | [] => some (0, [])
      | d :: _ =>
        if d.isDigit || d == '.' || d == 'e' || d == 'E' then none
        else some (0, rest)
    else if c.isDigit then
      match digitsVal rest (c.toNat - 48) with
      | (n, r) =>
        match r with
        | [] => some (n, [])
        | d :: _ =>
          if d == '.' || d == 'e' || d == 'E' then none
          else some (n, r)
    else none

/-- Read a JSON number with optional leading minus. -/
def parseNumber (cs : List Char) : Option (Json × List Char) :=
  match cs with
  | '-' :: rest => (parseNumMag rest).map (fun p => (Json.num (-(p.1 : Int)), p.2))
  | _ => (parseNumMag cs).map (fun p => (Json.num (p.1 : Int), p.2))

/-- Mode of the fueled JSON reader: a single value, the elements of a
non-empty array, or the members of a non-empty object. -/
inductive PMode where
  | pv
  | pelems
  | pmembers

/-- Result shape of the fueled JSON reader. -/
inductive POut where
  | v (j : Json)
  | vs (js : List Json)
  | ms (fs : List (String × Json))

/-- Fueled recursive-descent JSON reader; the fuel only bounds recursion
depth and is chosen generously at the top level. -/
def parseJ : Nat → PMode → List Char → Option (POut × List Char)
  | 0, _, _ => none
  | Nat.succ fuel, PMode.pv, cs =>
    let cs := cs.dropWhile isJsonWs
    match cs with
    | 'n' :: 'u' :: 'l' :: 'l' :: rest => some (POut.v Json.null, rest)
    | 't' :: 'r' :: 'u' :: 'e' :: rest => some (POut.v (Json.bool true), rest)
    | 'f' :: 'a' :: 'l' :: 's' :: 'e' :: rest => some (POut.v (Json.bool false), rest)
    | '"' :: rest =>
      match parseStringChars rest with
      | some (s, rest2) => some (POut.v (Json.str (String.mk s)), rest2)
      | none => none
    | '[' :: rest =>
      let rest := rest.dropWhile isJsonWs
      match rest with
      | ']' :: rest2 => some (POut.v (Json.arr []), rest2)
      | _ =>
        match parseJ fuel PMode.pelems rest with
        | some (POut.vs js, rest2) => some (POut.v (Json.arr js), rest2)
        | _ => none
    | '\x7b' :: rest =>
      let rest := rest.dropWhile isJsonWs
      match rest with
      | '\x7d' :: rest2 => some (POut.v (Json.obj []), rest2)
      | _ =>
        match parseJ fuel PMode.pmembers rest with
        | some (POut.ms fs, rest2) => some (POut.v (Json.obj fs), rest2)
        | _ => none
    | _ => (parseNumber cs).map (fun p => (POut.v p.1, p.2))
  | Nat.succ fuel, PMode.pelems, cs =>
    match parseJ fuel PMode.pv cs with
    | some (POut.v j, rest) =>
      let rest := rest.dropWhile isJsonWs
      match rest with
      | ',' :: rest2 =>
        match parseJ fuel PMode.pelems rest2 with
        | some (POut.vs js, rest3) => some (POut.vs (j :: js), rest3)
        | _ => none
      | ']' :: rest2 => some (POut.vs [j], rest2)
      | _ => none
    | _ => none
  | Nat.succ fuel, PMode.pmembers, cs =>
    let cs := cs.dropWhile isJsonWs
    match cs with
    | '"' :: rest =>
      match parseStringChars rest with
      | some (k, rest2) =>
        let rest2 := rest2.dropWhile isJsonWs
        match rest2 with
        | ':' :: rest3 =>
          match parseJ fuel PMode.pv rest3 with
          | some (POut.v j, rest4) =>
            let rest4 := rest4.dropWhile isJsonWs
            match rest4 with
            | ',' :: rest5 =>
              match parseJ fuel PMode.pmembers rest5 with
              | some (POut.ms fs, rest6) => some (POut.ms ((String.mk k, j) :: fs), rest6)
              | _ => none
            | '\x7d' :: rest5 => some (POut.ms [(String.mk k, j)], rest5)
            | _ => none
          | _ => none
        | _ => none
      | none => none
    | _ => none

/-- serde_json::from_str for Value: the whole input, up to trailing
insignificant whitespace, must be one JSON value. -/
def serde_json_from_str (s : String) : Option Json :=
  match parseJ (4 * s.data.length + 16) PMode.pv s.data with
  | some (POut.v j, rest) =>
    if (rest.dropWhile isJsonWs).isEmpty then some j else none
  | _ => none

/-- Hex digit in lowercase, as the serde string escape printer uses. -/
def hexDigit (n : Nat) : Char :=
  if n < 10 then Char.ofNat (48 + n) else Char.ofNat (87 + n)

/-- Escape one character for JSON string output, as serde does: quote and
backslash escaped, controls via short escapes or \u00XX. -/
def escapeJsonChar (c : Char) : List Char :=
  if c == '"' then ['\\', '"']
  else if c == '\\' then ['\\', '\\']
  else if c.toNat < 32 then
    match c.toNat with
    | 8 => ['\\', 'b']
    | 9 => ['\\', 't']
    | 10 => ['\\', 'n']
    | 12 => ['\\', 'f']
    | 13 => ['\\', 'r']
    | n => ['\\', 'u', '0', '0', hexDigit (n / 16), hexDigit (n % 16)]
  else [c]

/-- Quote and escape a string for JSON output. -/
def quoteJsonString (s : String) : String :=
  String.mk ('"' :: (s.data.flatMap escapeJsonChar) ++ ['"'])

/-- Compact JSON serialization, as the serde_json Display implementation
produces for Value::to_string. -/
def compactPrint : Json → String
  | Json.null => "null"
  | Json.bool b => if b then "true" else "false"
  | Json.num n => toString n
  | Json.str s => quoteJsonString s
  | Json.arr xs =>
    "[" ++ String.intercalate "," (xs.attach.map (fun x => compactPrint x.val)) ++ "]"
  | Json.obj fs =>
    "\x7b" ++
      String.intercalate ","
        (fs.attach.map (fun f => quoteJsonString f.val.fst ++ ":" ++ compactPrint f.val.snd)) ++
      "\x7d"
decreasing_by
  · have h := List.sizeOf_lt_of_mem x.property
    simp only [Json.arr.sizeOf_spec]
    omega
  · have h := List.sizeOf_lt_of_mem f.property
    obtain ⟨⟨a, b⟩, hm⟩ := f
    simp only [Json.obj.sizeOf_spec]
    simp only [Prod.mk.sizeOf_spec] at h
    omega

/-- The value returned for a property found in the JSON Properties object:
string values as-is, any other value via its compact serialization. -/
def json_value_render (v : Json) : String :=
  match v with
  | Json.str s => s
  | v => compactPrint v

/-! ## parse_msbuild_property_output -/

/-- Inner helper of parse_msbuild_property_output: trim, strip trailing
commas, closing braces, closing brackets and whitespace, trim, strip one
pair of surrounding double quotes, trim. -/
def sanitize_property_value (cs : List Char) : String :=
  let s1 := trimList cs
  let s2 := (s1.reverse.dropWhile
    (fun c => c == ',' || c == '\x7d' || c == ']' || isRustWs c)).reverse
  let s3 := trimList s2
  let s4 :=
    if s3.head? = some '"' ∧ s3.getLast? = some '"' ∧ 2 ≤ s3.length then
      (s3.drop 1).dropLast
    else s3
  String.mk (trimList s4)

/-- Loop guard of the line scan: the trimmed line is non-empty and its
lowercase form contains the lowercased property name. -/
def line_matches (property : String) (line : List Char) : Bool :=
  let t := trimList line
  !t.isEmpty && isInfixList (lowerList property.data) (lowerList t)

/-- Value extraction from one matching (already trimmed) line: the part
after the first equals sign, else after the first colon, else the token
after the token mentioning the property, else the whole line, each
sanitized. -/
def extract_from_line (propLower : List Char) (line : List Char) : String :=
  match splitOnceChar '=' line with
  | some p => sanitize_property_value p.2
  | none =>
    match splitOnceChar ':' line with
    | some p => sanitize_property_value p.2
    | none =>
      let tokens := splitWsList line
      if 2 ≤ tokens.length then
        match tokens.findIdx? (fun t => isInfixList propLower (lowerList t)) with
        | some idx =>
          if idx + 1 < tokens.length then sanitize_property_value (tokens.getD (idx + 1) [])
          else sanitize_property_value line
        | none => sanitize_property_value line
      else sanitize_property_value line

/-- Line-scanning strategy of parse_msbuild_property_output: the first
line whose trimmed form is non-empty and mentions the property
case-insensitively is handed to extract_from_line. -/
def scan_lines (output property : String) : Option String :=
  ((rustLines output.data).find? (fun l => line_matches property l)).map
    (fun l => extract_from_line (lowerList property.data) (trimList l))

/-- The trimmed, non-empty lines of the output. -/
def nonEmptyTrimmedLines (output : String) : List (List Char) :=
  ((rustLines output.data).map trimList).filter (fun l => !l.isEmpty)

/-- The whole output is a single non-empty line of exactly one
whitespace-delimited token. -/
def is_single_bare_token (output : String) : Bool :=
  match nonEmptyTrimmedLines output with
  | [l] => (splitWsList l).length == 1
  | _ => false

/-- Last-resort strategy of parse_msbuild_property_output: if the whole
output is one bare token, return it sanitized. -/
def single_token_fallback (output : String) : Option String :=
  match nonEmptyTrimmedLines output with
  | [l] => if (splitWsList l).length == 1 then some (sanitize_property_value l) else none
  | _ => none

/-- JSON strategy of parse_msbuild_property_output: parse the whole output
as JSON, read the top-level Properties object, read the property from it;
string values are returned as-is, other values are stringified. -/
def json_property_lookup (output property : String) : Option String :=
  match serde_json_from_str output with
  | some j =>
    match j.get "Properties" with
    | some props =>
      match props.get property with
      | some v => some (json_value_render v)
      | none => none
    | none => none
  | none => none

/-- parse_msbuild_property_output from csharp.rs: JSON strategy first,
then the case-insensitive line scan, then the single-bare-token
fallback. -/
def parse_msbuild_property_output (output property : String) : Option String :=
  match json_property_lookup output property with
  | some v => some v
  | none =>
    match scan_lines output property with
    | some v => some v
    | none => single_token_fallback output

/-! ## Extracted-tree model and find_binary_in_dir -/

/-- One entry of an extracted directory tree: a file or a directory with
its children, listed in directory-reading order. -/
inductive FsEntry where
  | file (nm : String)
  | dir (nm : String) (children : List FsEntry)

/-- Name of a tree entry. -/
def FsEntry.name : FsEntry → String
  | FsEntry.file nm => nm
  | FsEntry.dir nm _ => nm

/-- A file with the given name occurs somewhere in the entry list, at any
depth. -/
def fileInEntries (filename : String) : List FsEntry → Bool
  | [] => false
  | FsEntry.file nm :: es => nm == filename || fileInEntries filename es
  | FsEntry.dir _ cs :: es => fileInEntries filename cs || fileInEntries filename es

mutual

/-- Weight of an entry, used as termination measure of the worklist
search. -/
def entryWeight : FsEntry → Nat
  | FsEntry.file _ => 1
  | FsEntry.dir _ cs => 2 + entriesWeight cs

/-- Weight of an entry list. -/
def entriesWeight : List FsEntry → Nat
  | [] => 0
  | e :: es => entryWeight e + entriesWeight es

end

/-- Weight of a worklist of (path, remaining entries) frames. -/
def stackWeight : List (List String × List FsEntry) → Nat
  | [] => 0
  | (_, es) :: rest => 1 + entriesWeight es + stackWeight rest

/-- The iterative depth-first search of find_binary_in_dir: pop a frame,
scan its remaining entries; a matching file returns its path, a
subdirectory is pushed onto the worklist (and, matching the Rust
last-in-first-out stack, is visited after the current directory scan and
before earlier pushes). -/
def stackSearch (filename : String) : List (List String × List FsEntry) → Option (List String)
  | [] => none
  | (_, []) :: rest => stackSearch filename rest
  | (path, FsEntry.file nm :: es) :: rest =>
    if nm == filename then some (path ++ [nm])
    else stackSearch filename ((path, es) :: rest)
  | (path, FsEntry.dir nm cs :: es) :: rest =>
    stackSearch filename ((path, es) :: (path ++ [nm], cs) :: rest)
termination_by stack => stackWeight stack
decreasing_by
  · simp only [stackWeight, entriesWeight]
    omega
  · simp only [stackWeight, entriesWeight, entryWeight]
    omega
  · simp only [stackWeight, entriesWeight, entryWeight]
    omega

/-- find_binary_in_dir from csharp.rs over the tree model.  The quick
check mirrors fs::metadata on dir.join(filename): it succeeds whenever a
direct child of any kind bears the name.  Otherwise the worklist search
runs; exhaustion yields the descriptive error. -/
def find_binary_in_dir (entries : List FsEntry) (filename : String) :
    Except String (List String) :=
  if entries.any (fun e => e.name == filename) then Except.ok [filename]
  else
    match stackSearch filename [([], entries)] with
    | some p => Except.ok p
    | none => Except.error ("failed to find " ++ filename ++ " in extracted archive")

/-! ## Acquisition pipeline model -/

/-- GitHubLspBinaryVersion from the http_client crate: release tag,
asset download URL and optional content digest. -/
structure GitHubLspBinaryVersion where
  name : String
  url : String
  digest : Option String

/-- GithubBinaryMetadata: the sidecar cache record written next to the
binary. -/
structure GithubBinaryMetadata where
  metadata_version : Nat
  digest : Option String
deriving DecidableEq

/-- Observable effects of one fetch_server_binary run, in order. -/
inductive AcqAction where
  | readMetadata
  | validityCheck
  | checkBinaryExists
  | download
  | findBinary
  | createVersionDir
  | copyBinary
  | removeSiblings
  | writeMetadata (m : GithubBinaryMetadata)
  | spawnPrefetch
  | setPermissions
deriving DecidableEq

/-- Outcomes of the external operations fetch_server_binary performs,
fixed per run: the sidecar metadata read (None for absent or unreadable),
the liveness check (try_exec of the cached binary), the existence probe
of the cached binary file, the download, and the content of the
extraction directory after a successful download.  Operations the claims
never exercise (directory creation, copy, metadata write) are modelled
as succeeding. -/
structure FetchEnv where
  metadataRead : Option GithubBinaryMetadata
  tryExecOk : Bool
  binaryFileExists : Bool
  downloadOk : Bool
  extractedTree : List FsEntry

/-- State of the container directory: names of its entries and the
sidecar record stored next to the binary of the target version. -/
structure ContainerState where
  entries : List String
  metadataFile : Option GithubBinaryMetadata
deriving DecidableEq

/-- Version directory name, roslyn-{version}. -/
def versionDirName (nm : String) : String :=
  "roslyn-" ++ nm

/-- Cached binary path relative to the container directory (non-Windows
binary name, no .exe suffix). -/
def binaryPathOf (nm : String) : String :=
  versionDirName nm ++ "/csharp-language-server"

/-- Temporary extraction directory name, roslyn-{version}-tmp. -/
def tmpDirName (nm : String) : String :=
  "roslyn-" ++ nm ++ "-tmp"

/-- Directory creation: add the entry if it is not already present. -/
def insertEntry (es : List String) (e : String) : List String :=
  if e ∈ es then es else es ++ [e]

/-- The effect suffix of every run that downloads successfully: existence
probe, download, binary search, version directory creation, copy,
sibling removal, metadata write, detached prefetch, permission bits. -/
def promotionSuffix (v : GitHubLspBinaryVersion) : List AcqAction :=
  [AcqAction.checkBinaryExists, AcqAction.download, AcqAction.findBinary,
   AcqAction.createVersionDir, AcqAction.copyBinary, AcqAction.removeSiblings,
   AcqAction.writeMetadata ⟨1, v.digest⟩, AcqAction.spawnPrefetch,
   AcqAction.setPermissions]

/-- Second half of fetch_server_binary (csharp.rs lines 156 to 211): if no
file exists at the cached binary path, download and extract into the
temporary directory, locate the binary in the extracted tree, create the
version directory, copy the binary, remove every other entry of the
container directory, persist the metadata record, spawn the detached
prefetch and set the permission bits; finally return the cached binary
path. -/
def downloadPhase (v : GitHubLspBinaryVersion) (env : FetchEnv) (st : ContainerState)
    (acts : List AcqAction) : Except String String × ContainerState × List AcqAction :=
  if env.binaryFileExists then
    (Except.ok (binaryPathOf v.name), st, acts ++ [AcqAction.checkBinaryExists])
  else if env.downloadOk = false then
    (Except.error "failed to download asset", st,
     acts ++ [AcqAction.checkBinaryExists, AcqAction.download])
  else
    let st1 : ContainerState := ⟨insertEntry st.entries (tmpDirName v.name), st.metadataFile⟩
    match find_binary_in_dir env.extractedTree "csharp-language-server" with
    | Except.error e =>
      (Except.error ("failed to find csharp-language-server binary in extracted asset: " ++ e),
       st1, acts ++ [AcqAction.checkBinaryExists, AcqAction.download, AcqAction.findBinary])
    | Except.ok _found =>
      let md : GithubBinaryMetadata := ⟨1, v.digest⟩
      let st2 : ContainerState := ⟨insertEntry st1.entries (versionDirName v.name), st1.metadataFile⟩
      let st3 : ContainerState :=
        ⟨st2.entries.filter (fun e => e == versionDirName v.name), some md⟩
      (Except.ok (binaryPathOf v.name), st3, acts ++ promotionSuffix v)

/-- fetch_server_binary from csharp.rs (lines 95 to 211), non-Windows
target.  Read the sidecar metadata; when readable and both the recorded
and the expected digest are present and equal, a passing liveness check
returns the cached path; on digest mismatch control falls through to the
download phase without running the liveness check; when either digest is
missing, a passing liveness check returns the cached path; an absent or
unreadable sidecar goes straight to the download phase. -/
def fetch_server_binary (v : GitHubLspBinaryVersion) (env : FetchEnv) (st : ContainerState) :
    Except String String × ContainerState × List AcqAction :=
  match env.metadataRead with
  | some metadata =>
    match metadata.digest, v.digest with
    | some actual, some expected =>
      if actual = expected then
        if env.tryExecOk then
          (Except.ok (binaryPathOf v.name), st, [AcqAction.readMetadata, AcqAction.validityCheck])
        else downloadPhase v env st [AcqAction.readMetadata, AcqAction.validityCheck]
      else downloadPhase v env st [AcqAction.readMetadata]
    | _, _ =>
      if env.tryExecOk then
        (Except.ok (binaryPathOf v.name), st, [AcqAction.readMetadata, AcqAction.validityCheck])
      else downloadPhase v env st [AcqAction.readMetadata, AcqAction.validityCheck]
  | none => downloadPhase v env st [AcqAction.readMetadata]

/-! ## Version resolution model -/

/-- One release asset: name, download URL, optional digest. -/
structure GithubAsset where
  name : String
  browser_download_url : String
  digest : Option String

/-- One release: tag and asset list. -/
structure GithubRelease where
  tag_name : String
  assets : List GithubAsset

/-- Architecture component of the asset name (csharp.rs lines 48 to 52). -/
def arch_str_of (arch : String) : Except String String :=
  if arch = "aarch64" then Except.ok "aarch64"
  else if arch = "x86_64" then Except.ok "x86_64"
  else Except.error ("unsupported architecture: " ++ arch)

/-- OS component of the asset name (csharp.rs lines 54 to 59). -/
def os_str_of (os : String) : Except String String :=
  if os = "macos" then Except.ok "apple-darwin"
  else if os = "linux" then Except.ok "unknown-linux-gnu"
  else if os = "windows" then Except.ok "pc-windows-msvc"
  else Except.error ("Running on unsupported os: " ++ os)

/-- Asset name constructed from the current OS and architecture
(csharp.rs lines 48 to 67): architecture checked first, then OS, then
the extension chosen by OS. -/
def asset_name_of (os arch : String) : Except String String :=
  match arch_str_of arch with
  | Except.error e => Except.error e
  | Except.ok a =>
    match os_str_of os with
    | Except.error e => Except.error e
    | Except.ok o =>
      Except.ok ("csharp-language-server-" ++ a ++ "-" ++ o ++ "." ++
        (if os = "windows" then "zip" else "tar.gz"))

/-- fetch_latest_server_version from csharp.rs (lines 34 to 79).  The
release query, the only network call, runs unconditionally before the
architecture and OS checks; the Boolean component records that the
network call was made.  The matching asset is then looked up by the
constructed name. -/
def fetch_latest_server_version (os arch : String)
    (releaseResult : Except String GithubRelease) :
    Bool × Except String GitHubLspBinaryVersion :=
  (true,
    match releaseResult with
    | Except.error e => Except.error e
    | Except.ok release =>
      match asset_name_of os arch with
      | Except.error e => Except.error e
      | Except.ok assetName =>
        match release.assets.find? (fun a => a.name == assetName) with
        | some asset =>
          Except.ok ⟨release.tag_name, asset.browser_download_url, asset.digest⟩
        | none => Except.error ("no asset found matching " ++ assetName))

/-! ## Lemmas about the extraction strategies -/

/-- The line scan finds nothing exactly when no line passes the loop
guard. -/
lemma scan_lines_eq_none_iff (output property : String) :
    scan_lines output property = none ↔
      ∀ l ∈ rustLines output.data, line_matches property l = false := by
  unfold scan_lines
  simp [Option.map_eq_none', List.find?_eq_none]

/-- The bare-token fallback yields nothing exactly when the output is not
a single bare token. -/
lemma single_token_fallback_eq_none_iff (output : String) :
    single_token_fallback output = none ↔ is_single_bare_token output = false := by
  unfold single_token_fallback is_single_bare_token
  cases h : nonEmptyTrimmedLines output with
  | nil => simp
  | cons a t =>
    cases t with
    | nil =>
      by_cases hc : (splitWsList a).length == 1
      · simp [hc]
      · simp [hc]
    | cons b t2 => simp

/-! ## Metadata extraction claims -/

/-- The structured output of the C5 round-trip example. -/
def c5out : String := "\x7b\"Properties\":\x7b\"OutputType\":\"Exe\"\x7d\x7d"

/-- The structured output of the C10 empty-value example. -/
def c10out : String :=
  "\x7b\"Properties\":\x7b\"IsTestProject\":\"\",\"OutputType\":\"Exe\"\x7d\x7d"

/-- Output whose JSON object key carries a string escape, so the key is
found by the JSON strategy although it occurs in no line literally. -/
def c7out : String := "\x7b\"Properties\": \x7b\"a\\\"b\": \"v\"\x7d\x7d"

/-- The requested property matching the escaped key of c7out. -/
def c7prop : String := "a\"b"

/-- C5: for every requested property name, if the entire output parses as
JSON containing a top-level Properties object with that property,
parse_msbuild_property_output returns that property's value, string
values as-is and non-string values stringified. -/
theorem parse_msbuild_json_path (output property : String) (j props v : Json)
    (h1 : serde_json_from_str output = some j)
    (h2 : j.get "Properties" = some props)
    (h3 : props.get property = some v) :
    parse_msbuild_property_output output property = some (json_value_render v) := by
  simp only [parse_msbuild_property_output, json_property_lookup, h1, h2, h3]

/-- Witness for C5: the round-trip example of the claim, extracting
OutputType from the Properties JSON yields Exe. -/
theorem parse_msbuild_json_path_witness :
    parse_msbuild_property_output c5out "OutputType" = some "Exe" :=
  parse_msbuild_json_path c5out "OutputType"
    (Json.obj [("Properties", Json.obj [("OutputType", Json.str "Exe")])])
    (Json.obj [("OutputType", Json.str "Exe")]) (Json.str "Exe")
    (by rfl) (by rfl) (by rfl)

/-- C10: a property present in the JSON Properties object with an
empty-string value is reported as found, with the empty string as its
value, which is distinguishable from absence. -/
theorem parse_msbuild_empty_value_found (output property : String) (j props : Json)
    (h1 : serde_json_from_str output = some j)
    (h2 : j.get "Properties" = some props)
    (h3 : props.get property = some (Json.str "")) :
    parse_msbuild_property_output output property = some "" ∧
    parse_msbuild_property_output output property ≠ none := by
  have h : parse_msbuild_property_output output property = some "" := by
    simp only [parse_msbuild_property_output, json_property_lookup, h1, h2, h3]
    rfl
  exact ⟨h, by simp [h]⟩

/-- Witness for C10: extracting IsTestProject from the example output
yields the empty string, not absence. -/
theorem parse_msbuild_empty_value_found_witness :
    parse_msbuild_property_output c10out "IsTestProject" = some "" ∧
    parse_msbuild_property_output c10out "IsTestProject" ≠ none :=
  parse_msbuild_empty_value_found c10out "IsTestProject"
    (Json.obj [("Properties",
      Json.obj [("IsTestProject", Json.str ""), ("OutputType", Json.str "Exe")])])
    (Json.obj [("IsTestProject", Json.str ""), ("OutputType", Json.str "Exe")])
    (by rfl) (by rfl) (by rfl)

/-- C6: parse_msbuild_property_output is format-tolerant: the equals
form, the colon form and the bare single-token output all yield Exe for
the requested property OutputType; the line scan is case-insensitive in
the requested property name, so outputtype matches the OutputType line
as well, and in general the line scan cannot distinguish two property
names with the same lowercase form. -/
theorem parse_msbuild_format_tolerant :
    parse_msbuild_property_output "OutputType = Exe" "OutputType" = some "Exe" ∧
    parse_msbuild_property_output "OutputType: Exe" "OutputType" = some "Exe" ∧
    parse_msbuild_property_output "Exe" "OutputType" = some "Exe" ∧
    parse_msbuild_property_output "OutputType: Exe" "outputtype" = some "Exe" ∧
    ∀ output p q : String, lowerList p.data = lowerList q.data →
      scan_lines output p = scan_lines output q := by
  refine ⟨by rfl, by rfl, by rfl, by rfl, ?_⟩
  intro output p q h
  unfold scan_lines line_matches
  rw [h]

/-- Witness for C6: the case-insensitivity conjunct applied at a concrete
pair of property names differing only in case. -/
theorem parse_msbuild_format_tolerant_witness :
    scan_lines "OutputType: Exe" "OUTPUTTYPE" = scan_lines "OutputType: Exe" "outputtype" :=
  parse_msbuild_format_tolerant.2.2.2.2 "OutputType: Exe" "OUTPUTTYPE" "outputtype" (by rfl)

/-- C7 as stated is false: c7out parses as JSON whose Properties object
contains the key of c7prop (decoded from a string escape), so the JSON
strategy returns a value, although no line of the output contains the
property name case-insensitively and the output is not a single bare
token; the claimed equivalence fails at this input. -/
theorem parse_msbuild_absence_counterexample :
    ¬ (parse_msbuild_property_output c7out c7prop = none ↔
        ((∀ l ∈ rustLines c7out.data,
            isInfixList (lowerList c7prop.data) (lowerList l) = false) ∧
         is_single_bare_token c7out = false)) := by
  decide

/-- C7 (amended): extraction is total and a property is absent from the
result exactly when the JSON strategy finds no value for it, no line of
the output is non-empty after trimming and contains the property name
case-insensitively in its trimmed form, and the output is not a single
non-empty line of exactly one whitespace-delimited token. -/
theorem parse_msbuild_absence_characterization (output property : String) :
    parse_msbuild_property_output output property = none ↔
      (json_property_lookup output property = none ∧
       (∀ l ∈ rustLines output.data, line_matches property l = false) ∧
       is_single_bare_token output = false) := by
  unfold parse_msbuild_property_output
  cases hj : json_property_lookup output property with
  | some v => simp [hj]
  | none =>
    cases hs : scan_lines output property with
    | some v =>
      have hex : ∃ l ∈ rustLines output.data, line_matches property l = true := by
        unfold scan_lines at hs
        rcases Option.map_eq_some'.mp hs with ⟨l, hfind, _⟩
        exact ⟨l, List.mem_of_find?_eq_some hfind, List.find?_some hfind⟩
      rcases hex with ⟨l, hl, hm⟩
      simp only [hs]
      constructor
      · intro hcontra
        exact absurd hcontra (by simp)
      · rintro ⟨_, hall, _⟩
        rw [hall l hl] at hm
        cases hm
    | none =>
      have hall := (scan_lines_eq_none_iff output property).mp hs
      simp [single_token_fallback_eq_none_iff, hall]
      intro _
      exact hall

/-- Witness for C7 (amended): the characterization applied at the
no-reference output of the repository's own unit test. -/
theorem parse_msbuild_absence_characterization_witness :
    parse_msbuild_property_output "Some noise\n" "OutputType" = none :=
  (parse_msbuild_absence_characterization "Some noise\n" "OutputType").mpr (by decide)

/-! ## Lemmas about the worklist search -/

/-- Worker for stackSearch_eq_none_iff: strong induction on the worklist
weight. -/
lemma stackSearch_none_aux (filename : String) :
    ∀ (n : Nat) (stack : List (List String × List FsEntry)), stackWeight stack ≤ n →
      (stackSearch filename stack = none ↔
        ∀ f ∈ stack, fileInEntries filename f.2 = false) := by
  intro n
  induction n with
  | zero =>
    intro stack hw
    rcases stack with _ | ⟨⟨path, es⟩, rest⟩
    · simp [stackSearch]
    · exfalso
      simp [stackWeight] at hw
  | succ n ih =>
    intro stack hw
    rcases stack with _ | ⟨⟨path, es⟩, rest⟩
    · simp [stackSearch]
    · rcases es with _ | ⟨e, es⟩
      · have hw' : stackWeight rest ≤ n := by
          simp only [stackWeight, entriesWeight] at hw
          omega
        simp only [stackSearch, List.forall_mem_cons]
        rw [ih rest hw']
        simp [fileInEntries]
      · rcases e with ⟨nm⟩ | ⟨nm, cs⟩
        · by_cases hnm : (nm == filename) = true
          · simp only [stackSearch, hnm, if_true, List.forall_mem_cons]
            simp [fileInEntries, hnm]
          · have hnm' : (nm == filename) = false := by simpa using hnm
            have hw' : stackWeight ((path, es) :: rest) ≤ n := by
              simp only [stackWeight, entriesWeight, entryWeight] at hw ⊢
              omega
            simp only [stackSearch, hnm', if_false, Bool.false_eq_true]
            rw [ih _ hw']
            simp [fileInEntries, hnm', List.forall_mem_cons]
        · have hw' : stackWeight ((path, es) :: (path ++ [nm], cs) :: rest) ≤ n := by
            simp only [stackWeight, entriesWeight, entryWeight] at hw ⊢
            omega
          simp only [stackSearch]
          rw [ih _ hw']
          simp only [List.forall_mem_cons, fileInEntries]
          simp [Bool.or_eq_false_iff]
          tauto

/-- The worklist search fails exactly when no frame of the worklist
contains a file of the requested name at any depth. -/
lemma stackSearch_eq_none_iff (filename : String)
    (stack : List (List String × List FsEntry)) :
    stackSearch filename stack = none ↔
      ∀ f ∈ stack, fileInEntries filename f.2 = false :=
  stackSearch_none_aux filename (stackWeight stack) stack (le_refl _)

/-- Worker for stackSearch_suffix: any returned path ends in the
requested filename. -/
lemma stackSearch_suffix_aux (filename : String) :
    ∀ (n : Nat) (stack : List (List String × List FsEntry)) (p : List String),
      stackWeight stack ≤ n → stackSearch filename stack = some p →
      ∃ q, p = q ++ [filename] := by
  intro n
  induction n with
  | zero =>
    intro stack p hw hs
    rcases stack with _ | ⟨⟨path, es⟩, rest⟩
    · simp [stackSearch] at hs
    · exfalso
      simp [stackWeight] at hw
  | succ n ih =>
    intro stack p hw hs
    rcases stack with _ | ⟨⟨path, es⟩, rest⟩
    · simp [stackSearch] at hs
    · rcases es with _ | ⟨e, es⟩
      · have hw' : stackWeight rest ≤ n := by
          simp only [stackWeight, entriesWeight] at hw
          omega
        rw [stackSearch] at hs
        exact ih rest p hw' hs
      · rcases e with ⟨nm⟩ | ⟨nm, cs⟩
        · by_cases hnm : (nm == filename) = true
          · rw [stackSearch, if_pos hnm] at hs
            have hnmeq : nm = filename := by simpa using hnm
            refine ⟨path, ?_⟩
            cases hs
            rw [hnmeq]
          · have hnm' : (nm == filename) = false := by simpa using hnm
            have hw' : stackWeight ((path, es) :: rest) ≤ n := by
              simp only [stackWeight, entriesWeight, entryWeight] at hw ⊢
              omega
            rw [stackSearch, if_neg (by simp [hnm'])] at hs
            exact ih _ p hw' hs
        · have hw' : stackWeight ((path, es) :: (path ++ [nm], cs) :: rest) ≤ n := by
            simp only [stackWeight, entriesWeight, entryWeight] at hw ⊢
            omega
          rw [stackSearch] at hs
          exact ih _ p hw' hs

/-- Any path returned by the worklist search ends in the requested
filename. -/
lemma stackSearch_suffix (filename : String)
    (stack : List (List String × List FsEntry)) (p : List String)
    (hs : stackSearch filename stack = some p) : ∃ q, p = q ++ [filename] :=
  stackSearch_suffix_aux filename (stackWeight stack) stack p (le_refl _) hs

/-! ## find_binary_in_dir claims -/

/-- A tree whose only entry of the requested name is a directory, not a
file. -/
def c8tree : List FsEntry := [FsEntry.dir "csharp-language-server" []]

/-- A tree containing the requested file nested one level deep. -/
def c8yes : List FsEntry := [FsEntry.dir "sub" [FsEntry.file "csharp-language-server"]]

/-- A tree containing no entry of the requested name anywhere. -/
def c8no : List FsEntry :=
  [FsEntry.file "other", FsEntry.dir "sub" [FsEntry.file "another"]]

/-- C8 (amended): find_binary_in_dir locates a file of the requested name
at arbitrary nesting depth (the returned path ends in that name), and
when no file of that name exists anywhere in the tree and additionally
no direct child entry of any kind bears that name, it fails cleanly with
the descriptive error; a direct child directory of the requested name is
accepted by the initial quick check and returned. -/
theorem find_binary_in_dir_spec (entries : List FsEntry) (filename : String) :
    (fileInEntries filename entries = true →
      ∃ q, find_binary_in_dir entries filename = Except.ok (q ++ [filename])) ∧
    (fileInEntries filename entries = false →
      (∀ e ∈ entries, (e.name == filename) = false) →
      find_binary_in_dir entries filename =
        Except.error ("failed to find " ++ filename ++ " in extracted archive")) := by
  constructor
  · intro hin
    unfold find_binary_in_dir
    by_cases hq : entries.any (fun e => e.name == filename) = true
    · simp only [hq, if_true]
      exact ⟨[], rfl⟩
    · have hq' : entries.any (fun e => e.name == filename) = false := by simpa using hq
      simp only [hq', Bool.false_eq_true, if_false]
      cases hs : stackSearch filename [([], entries)] with
      | some p =>
        rcases stackSearch_suffix filename _ p hs with ⟨q, rfl⟩
        exact ⟨q, rfl⟩
      | none =>
        exfalso
        have hnone := (stackSearch_eq_none_iff filename [([], entries)]).mp hs
        have h2 := hnone ([], entries) (by simp)
        rw [hin] at h2
        cases h2
  · intro hno hnochild
    unfold find_binary_in_dir
    have hq : entries.any (fun e => e.name == filename) = false := by
      rw [List.any_eq_false]
      intro e he
      simp [hnochild e he]
    have hs : stackSearch filename [([], entries)] = none := by
      rw [stackSearch_eq_none_iff]
      intro f hf
      have : f = ([], entries) := by simpa using hf
      rw [this]
      exact hno
    simp only [hq, Bool.false_eq_true, if_false, hs]

/-- Witness for C8: the amended claim applied at a tree with the binary
nested one level deep, and at a tree not containing the name at all. -/
theorem find_binary_in_dir_spec_witness :
    (∃ q, find_binary_in_dir c8yes "csharp-language-server" =
      Except.ok (q ++ ["csharp-language-server"])) ∧
    find_binary_in_dir c8no "csharp-language-server" =
      Except.error ("failed to find " ++ "csharp-language-server" ++ " in extracted archive") :=
  ⟨(find_binary_in_dir_spec c8yes "csharp-language-server").1
      (by simp [c8yes, fileInEntries]),
   (find_binary_in_dir_spec c8no "csharp-language-server").2
      (by simp [c8no, fileInEntries]) (by simp [c8no, FsEntry.name])⟩

/-- C8 counterexample: on a tree whose only entry named
csharp-language-server is a directory, no file of that name exists
anywhere, yet find_binary_in_dir does not fail: the quick check accepts
the directory and its path is returned. -/
theorem find_binary_in_dir_counterexample :
    fileInEntries "csharp-language-server" c8tree = false ∧
    find_binary_in_dir c8tree "csharp-language-server" =
      Except.ok ["csharp-language-server"] := by
  constructor
  · simp [c8tree, fileInEntries]
  · simp [c8tree, find_binary_in_dir, FsEntry.name]

/-! ## Lemmas about the container state -/

/-- Filtering a duplicate-free list for one of its members keeps exactly
that member. -/
lemma filter_beq_of_nodup (l : List String) (a : String)
    (hnd : l.Nodup) (hmem : a ∈ l) :
    l.filter (fun e => e == a) = [a] := by
  induction l with
  | nil => cases hmem
  | cons b t ih =>
    rcases List.nodup_cons.mp hnd with ⟨hbt, ht⟩
    by_cases hba : b = a
    · subst hba
      have hnone : t.filter (fun e => e == b) = [] := by
        rw [List.filter_eq_nil_iff]
        intro x hx
        simp only [beq_iff_eq]
        intro hxb
        exact hbt (hxb ▸ hx)
      simp [List.filter_cons, hnone]
    · have hat : a ∈ t := by
        rcases List.mem_cons.mp hmem with h | h
        · exact absurd h.symm hba
        · exact h
      have : (b == a) = false := by simpa using hba
      simp [List.filter_cons, this, ih ht hat]

/-- insertEntry preserves freedom from duplicates. -/
lemma insertEntry_nodup (l : List String) (e : String) (hnd : l.Nodup) :
    (insertEntry l e).Nodup := by
  unfold insertEntry
  by_cases hmem : e ∈ l
  · simp [hmem, hnd]
  · simp [hmem, List.nodup_append, hnd]

/-- insertEntry makes the entry a member. -/
lemma mem_insertEntry (l : List String) (e : String) : e ∈ insertEntry l e := by
  unfold insertEntry
  by_cases hmem : e ∈ l
  · simp [hmem]
  · simp [hmem]

/-! ## Acquisition pipeline claims -/

/-- Behaviour of the download phase on every run that performs the
download and succeeds: the final container holds exactly the new version
directory, the persisted record is format version 1 with the expected
digest, and the effects extend the prefix with the promotion suffix in
order. -/
lemma downloadPhase_promotion (v : GitHubLspBinaryVersion) (env : FetchEnv)
    (st : ContainerState) (acts0 : List AcqAction) (p : String)
    (st2 : ContainerState) (acts : List AcqAction)
    (hnd : st.entries.Nodup)
    (hdl0 : AcqAction.download ∉ acts0)
    (h : downloadPhase v env st acts0 = (Except.ok p, st2, acts))
    (hdl : AcqAction.download ∈ acts) :
    st2.entries = [versionDirName v.name] ∧
    st2.metadataFile = some ⟨1, v.digest⟩ ∧
    acts = acts0 ++ promotionSuffix v := by
  unfold downloadPhase at h
  by_cases hex : env.binaryFileExists = true
  · rw [if_pos hex] at h
    have hacts : acts = acts0 ++ [AcqAction.checkBinaryExists] :=
      congrArg (fun t => t.2.2) h.symm
    exfalso
    rw [hacts] at hdl
    rcases List.mem_append.mp hdl with hmem | hmem
    · exact hdl0 hmem
    · simp at hmem
  · rw [if_neg hex] at h
    by_cases hdok : env.downloadOk = false
    · rw [if_pos hdok] at h
      exact absurd (congrArg Prod.fst h) (by simp)
    · rw [if_neg hdok] at h
      cases hfind : find_binary_in_dir env.extractedTree "csharp-language-server" with
      | error e =>
        rw [hfind] at h
        exact absurd (congrArg Prod.fst h) (by simp)
      | ok found =>
        rw [hfind] at h
        simp only [Prod.mk.injEq] at h
        obtain ⟨h1, h2, h3⟩ := h
        refine ⟨?_, ?_, h3.symm⟩
        · rw [← h2]
          exact filter_beq_of_nodup _ _
            (insertEntry_nodup _ _ (insertEntry_nodup _ _ hnd))
            (mem_insertEntry _ _)
        · rw [← h2]

/-- Wrapper of downloadPhase_promotion producing the existential form of
the C4 conclusion. -/
lemma downloadPhase_promotion_ex (v : GitHubLspBinaryVersion) (env : FetchEnv)
    (st : ContainerState) (acts0 : List AcqAction) (p : String)
    (st2 : ContainerState) (acts : List AcqAction)
    (hnd : st.entries.Nodup)
    (hdl0 : AcqAction.download ∉ acts0)
    (h : downloadPhase v env st acts0 = (Except.ok p, st2, acts))
    (hdl : AcqAction.download ∈ acts) :
    st2.entries = [versionDirName v.name] ∧
    st2.metadataFile = some ⟨1, v.digest⟩ ∧
    ∃ pre, acts = pre ++ promotionSuffix v := by
  obtain ⟨e1, e2, e3⟩ := downloadPhase_promotion v env st acts0 p st2 acts hnd hdl0 h hdl
  exact ⟨e1, e2, ⟨acts0, e3⟩⟩

/-- C3: when the sidecar metadata is readable, its recorded digest and
the expected digest are both present and equal, and the liveness check
passes, fetch_server_binary returns the cached binary path with no other
effect: the container state is unchanged and the only effects are the
metadata read and the liveness check — in particular no download — so a
repeated call under the same environment returns the same result. -/
theorem fetch_server_binary_cache_hit (v : GitHubLspBinaryVersion) (env : FetchEnv)
    (st : ContainerState) (m : GithubBinaryMetadata) (d : String)
    (h1 : env.metadataRead = some m) (h2 : m.digest = some d) (h3 : v.digest = some d)
    (h4 : env.tryExecOk = true) :
    fetch_server_binary v env st =
      (Except.ok (binaryPathOf v.name), st,
       [AcqAction.readMetadata, AcqAction.validityCheck]) ∧
    fetch_server_binary v env ((fetch_server_binary v env st).2.1) =
      fetch_server_binary v env st := by
  have hA : fetch_server_binary v env st =
      (Except.ok (binaryPathOf v.name), st,
       [AcqAction.readMetadata, AcqAction.validityCheck]) := by
    simp [fetch_server_binary, h1, h2, h3, h4]
  refine ⟨hA, ?_⟩
  rw [hA]
  exact hA

/-- Version, environment and container used by the cache-hit witness. -/
def c3v : GitHubLspBinaryVersion := ⟨"1.0.0", "https://example.com/b.tar.gz", some "d1"⟩

/-- Environment of the cache-hit witness: matching digests, passing
liveness check. -/
def c3env : FetchEnv := ⟨some ⟨1, some "d1"⟩, true, true, true, []⟩

/-- Container of the cache-hit witness. -/
def c3st : ContainerState := ⟨["roslyn-1.0.0"], some ⟨1, some "d1"⟩⟩

/-- Witness for C3 at a concrete matching-digest environment. -/
theorem fetch_server_binary_cache_hit_witness :
    fetch_server_binary c3v c3env c3st =
      (Except.ok (binaryPathOf "1.0.0"), c3st,
       [AcqAction.readMetadata, AcqAction.validityCheck]) ∧
    fetch_server_binary c3v c3env ((fetch_server_binary c3v c3env c3st).2.1) =
      fetch_server_binary c3v c3env c3st :=
  fetch_server_binary_cache_hit c3v c3env c3st ⟨1, some "d1"⟩ "d1"
    (by rfl) (by rfl) (by rfl) (by rfl)

/-- C9: when the sidecar metadata is absent or unreadable but a file
already exists at the cached binary path, fetch_server_binary returns
that binary having performed only the metadata read attempt and the
existence probe: no liveness check, no digest comparison, no download. -/
theorem fetch_server_binary_preexisting_binary (v : GitHubLspBinaryVersion)
    (env : FetchEnv) (st : ContainerState)
    (h1 : env.metadataRead = none) (h2 : env.binaryFileExists = true) :
    fetch_server_binary v env st =
      (Except.ok (binaryPathOf v.name), st,
       [AcqAction.readMetadata, AcqAction.checkBinaryExists]) ∧
    AcqAction.validityCheck ∉ [AcqAction.readMetadata, AcqAction.checkBinaryExists] ∧
    AcqAction.download ∉ [AcqAction.readMetadata, AcqAction.checkBinaryExists] := by
  refine ⟨?_, by decide, by decide⟩
  simp [fetch_server_binary, downloadPhase, h1, h2]

/-- Environment of the C9 witness: unreadable metadata, existing binary
file. -/
def c9env : FetchEnv := ⟨none, true, true, true, []⟩

/-- Witness for C9 at a concrete environment with no readable metadata. -/
theorem fetch_server_binary_preexisting_binary_witness :
    fetch_server_binary c3v c9env c3st =
      (Except.ok (binaryPathOf "1.0.0"), c3st,
       [AcqAction.readMetadata, AcqAction.checkBinaryExists]) ∧
    AcqAction.validityCheck ∉ [AcqAction.readMetadata, AcqAction.checkBinaryExists] ∧
    AcqAction.download ∉ [AcqAction.readMetadata, AcqAction.checkBinaryExists] :=
  fetch_server_binary_preexisting_binary c3v c9env c3st (by rfl) (by rfl)

/-- C4: after every run of fetch_server_binary that succeeds and performs
the download, the container directory holds exactly the new version
directory (all siblings, older versions and the temporary extraction
directory included, were removed), the persisted sidecar record is
format version 1 with the expected digest, and the effects end with the
ordered promotion suffix: existence probe, download, binary search,
version directory creation, copy, sibling removal, metadata write,
detached prefetch, permission bits. -/
theorem fetch_server_binary_promotion (v : GitHubLspBinaryVersion) (env : FetchEnv)
    (st : ContainerState) (p : String) (st2 : ContainerState) (acts : List AcqAction)
    (hnd : st.entries.Nodup)
    (h : fetch_server_binary v env st = (Except.ok p, st2, acts))
    (hdl : AcqAction.download ∈ acts) :
    st2.entries = [versionDirName v.name] ∧
    st2.metadataFile = some ⟨1, v.digest⟩ ∧
    ∃ pre, acts = pre ++ promotionSuffix v := by
  obtain ⟨mr, te, be, dok, tree⟩ := env
  cases mr with
  | none =>
    simp only [fetch_server_binary] at h
    exact downloadPhase_promotion_ex v _ st [AcqAction.readMetadata]
      p st2 acts hnd (by decide) h hdl
  | some metadata =>
    obtain ⟨mver, mdig⟩ := metadata
    cases mdig with
    | none =>
      cases te with
      | true =>
        simp only [fetch_server_binary] at h
        exfalso
        have hacts : acts = [AcqAction.readMetadata, AcqAction.validityCheck] :=
          congrArg (fun t => t.2.2) h.symm
        rw [hacts] at hdl
        simp at hdl
      | false =>
        simp only [fetch_server_binary] at h
        exact downloadPhase_promotion_ex v _ st
          [AcqAction.readMetadata, AcqAction.validityCheck] p st2 acts hnd (by decide) h hdl
    | some actual =>
      obtain ⟨vn, vu, vd⟩ := v
      cases vd with
      | none =>
        cases te with
        | true =>
          simp only [fetch_server_binary] at h
          exfalso
          have hacts : acts = [AcqAction.readMetadata, AcqAction.validityCheck] :=
            congrArg (fun t => t.2.2) h.symm
          rw [hacts] at hdl
          simp at hdl
        | false =>
          simp only [fetch_server_binary] at h
          exact downloadPhase_promotion_ex ⟨vn, vu, none⟩ _ st
            [AcqAction.readMetadata, AcqAction.validityCheck] p st2 acts hnd (by decide) h hdl
      | some expected =>
        by_cases heq : actual = expected
        · subst heq
          cases te with
          | true =>
            simp only [fetch_server_binary] at h
            exfalso
            have hacts : acts = [AcqAction.readMetadata, AcqAction.validityCheck] :=
              congrArg (fun t => t.2.2) h.symm
            rw [hacts] at hdl
            simp at hdl
          | false =>
            simp only [fetch_server_binary] at h
            exact downloadPhase_promotion_ex ⟨vn, vu, some actual⟩ _ st
              [AcqAction.readMetadata, AcqAction.validityCheck] p st2 acts hnd (by decide) h hdl
        · simp only [fetch_server_binary, heq, if_false] at h
          exact downloadPhase_promotion_ex ⟨vn, vu, some expected⟩ _ st
            [AcqAction.readMetadata] p st2 acts hnd (by decide) h hdl

/-- Version of the C4 witness. -/
def c4v : GitHubLspBinaryVersion := ⟨"1.2.3", "https://example.com/c.zip", some "digest123"⟩

/-- Environment of the C4 witness: no metadata, no cached binary file,
successful download, binary present at the top of the extracted tree. -/
def c4env : FetchEnv := ⟨none, false, false, true, [FsEntry.file "csharp-language-server"]⟩

/-- Container of the C4 witness holding two stale version directories. -/
def c4st : ContainerState := ⟨["roslyn-0.9.0", "roslyn-0.8.0"], none⟩

/-- Witness for C4 at a concrete downloading run. -/
theorem fetch_server_binary_promotion_witness :
    (fetch_server_binary c4v c4env c4st).2.1.entries = [versionDirName c4v.name] ∧
    (fetch_server_binary c4v c4env c4st).2.1.metadataFile = some ⟨1, c4v.digest⟩ ∧
    ∃ pre, (fetch_server_binary c4v c4env c4st).2.2 = pre ++ promotionSuffix c4v :=
  fetch_server_binary_promotion c4v c4env c4st (binaryPathOf c4v.name)
    ((fetch_server_binary c4v c4env c4st).2.1) ((fetch_server_binary c4v c4env c4st).2.2)
    (by decide) (by rfl) (by decide)

/-- Version of the stale-digest run: the resolved release advertises a
new digest. -/
def c1v : GitHubLspBinaryVersion := ⟨"2.0.0", "https://example.com/a.tar.gz", some "newdigest"⟩

/-- Environment of the stale-digest run: the sidecar records a different
digest, the liveness check would pass, and the stale binary file exists
at the cached path. -/
def c1env : FetchEnv :=
  ⟨some ⟨1, some "olddigest"⟩, true, true, true, [FsEntry.file "csharp-language-server"]⟩

/-- Container of the stale-digest run. -/
def c1st : ContainerState := ⟨["roslyn-2.0.0"], some ⟨1, some "olddigest"⟩⟩

/-- C1 exhibits a code bug: with the recorded digest olddigest differing
from the expected digest newdigest and a binary file present at the
cached path, fetch_server_binary performs no download and returns the
stale binary — the mismatch branch falls through to an existence probe
that skips the download whenever the file is already there, although
the code logs that it is downloading a new asset. -/
theorem fetch_server_binary_stale_digest_bug :
    fetch_server_binary c1v c1env c1st =
      (Except.ok (binaryPathOf "2.0.0"), c1st,
       [AcqAction.readMetadata, AcqAction.checkBinaryExists]) ∧
    AcqAction.download ∉ [AcqAction.readMetadata, AcqAction.checkBinaryExists] := by
  exact ⟨by rfl, by decide⟩

/-! ## Version resolution claims -/

/-- C2 (amended): asset-name construction is deterministic and yields
exactly one string for each of the six supported (OS, architecture)
pairs; an unsupported architecture or OS makes
fetch_latest_server_version fail with the descriptive error regardless
of the release content — after the release query, which runs first and
unconditionally (the Boolean component records the network call), but
before any asset matching. -/
theorem fetch_latest_server_version_checks :
    (asset_name_of "linux" "x86_64" =
        Except.ok "csharp-language-server-x86_64-unknown-linux-gnu.tar.gz" ∧
     asset_name_of "linux" "aarch64" =
        Except.ok "csharp-language-server-aarch64-unknown-linux-gnu.tar.gz" ∧
     asset_name_of "macos" "x86_64" =
        Except.ok "csharp-language-server-x86_64-apple-darwin.tar.gz" ∧
     asset_name_of "macos" "aarch64" =
        Except.ok "csharp-language-server-aarch64-apple-darwin.tar.gz" ∧
     asset_name_of "windows" "x86_64" =
        Except.ok "csharp-language-server-x86_64-pc-windows-msvc.zip" ∧
     asset_name_of "windows" "aarch64" =
        Except.ok "csharp-language-server-aarch64-pc-windows-msvc.zip") ∧
    (∀ (os arch : String) (r : GithubRelease),
      arch ≠ "aarch64" → arch ≠ "x86_64" →
      fetch_latest_server_version os arch (Except.ok r) =
        (true, Except.error ("unsupported architecture: " ++ arch))) ∧
    (∀ (os arch : String) (r : GithubRelease),
      (arch = "aarch64" ∨ arch = "x86_64") →
      os ≠ "macos" → os ≠ "linux" → os ≠ "windows" →
      fetch_latest_server_version os arch (Except.ok r) =
        (true, Except.error ("Running on unsupported os: " ++ os))) := by
  refine ⟨⟨by rfl, by rfl, by rfl, by rfl, by rfl, by rfl⟩, ?_, ?_⟩
  · intro os arch r h1 h2
    simp [fetch_latest_server_version, asset_name_of, arch_str_of, h1, h2]
  · intro os arch r harch h1 h2 h3
    rcases harch with rfl | rfl <;>
      simp [fetch_latest_server_version, asset_name_of, arch_str_of, os_str_of, h1, h2, h3]

/-- Witness for C2 at a concrete unsupported architecture. -/
theorem fetch_latest_server_version_checks_witness :
    fetch_latest_server_version "linux" "riscv64" (Except.ok ⟨"v1.0.0", []⟩) =
      (true, Except.error ("unsupported architecture: " ++ "riscv64")) :=
  fetch_latest_server_version_checks.2.1 "linux" "riscv64" ⟨"v1.0.0", []⟩
    (by decide) (by decide)

/-- C2 counterexample: on an unsupported OS the run fails with the
descriptive error, but the release query has already been made — the
network-call component of the result is true, not false, so the failure
does not precede the network call as the claim states. -/
theorem fetch_latest_network_call_first :
    fetch_latest_server_version "freebsd" "x86_64" (Except.ok ⟨"v1.0.0", []⟩) =
      (true, Except.error "Running on unsupported os: freebsd") := by
  rfl
